import Mathlib

/-!
Verification of the chunking-and-batch-ingestion pipeline of a RAG document
service.  The definitions below are a shallow embedding of the TypeScript
source (src/app/api/gemini/model/routes.ts, src/lib/pinecone.ts,
src/app/api/chat/route.ts).  JavaScript strings are modelled as `List Char`
(the sources only manipulate them through length, slice, split, trim and
concatenation, which agree with the list model on the character sequences
involved).  JavaScript numbers that are used as integers (lengths, counts,
HTTP statuses, token budgets) are modelled as `Nat`; Pinecone match scores
are modelled as `Int` (the only operations on them are `* 100`,
`Math.round` — exact on integers — and comparison).  The tokenizer
(js-tiktoken) is external; it is modelled as an arbitrary counting function
`cnt : Str → Nat`, with `lenTok` (count = number of characters) used as a
concrete executable instance for evaluations.
-/

set_option maxRecDepth 10000

abbrev Str := List Char

def strL (s : String) : Str := s.toList

/-- Whitespace characters relevant to the source (JS `trim` also strips
these; the source's separators only contain space and newline). -/
def wsChar (c : Char) : Bool :=
  c == ' ' || c == '\n' || c == '\t' || c == '\r'

/-- JS `String.prototype.trim`: drop leading and trailing whitespace. -/
def jsTrim (t : Str) : Str :=
  ((t.dropWhile wsChar).reverse.dropWhile wsChar).reverse

/-- The non-whitespace content of a string (used to state the lossless
round-trip property "ignoring whitespace"). -/
def nonWS (t : Str) : Str := t.filter (fun c => !wsChar c)

/-- Concrete executable tokenizer model: one token per character.  Used to
evaluate the pipeline on concrete inputs; general theorems are stated for an
arbitrary `cnt : Str → Nat`. -/
def lenTok (t : Str) : Nat := t.length

/-- `sep.isPrefixOf t` as used by the split model. -/
def hasLead (sep t : Str) : Bool := t.take sep.length == sep

/-- Prepend a character to the first piece of a split result (the piece
currently being accumulated). -/
def modHead (c : Char) : List Str → List Str
  | [] => [[c]]
  | p :: ps => (c :: p) :: ps

/-- Fuel-driven model of JS `String.prototype.split` with a non-empty
separator: scan left to right, cutting each time the separator occurs.
`fuel ≥ t.length` makes the fuel branch unreachable.  (The source never
splits on the empty separator: the last entry of the separator list triggers
character slicing instead.) -/
def splitFuel (sep : Str) : Nat → Str → List Str
  | _, [] => [[]]
  | 0, t => [t]
  | fuel + 1, c :: rest =>
    if !sep.isEmpty && hasLead sep (c :: rest) then
      [] :: splitFuel sep fuel ((c :: rest).drop sep.length)
    else
      modHead c (splitFuel sep fuel rest)

def splitOnL (sep t : Str) : List Str := splitFuel sep t.length t

/-- Join a list of strings with a separator (inverse of `splitOnL`). -/
def joinSep (sep : Str) : List Str → Str
  | [] => []
  | [x] => x
  | x :: y :: ys => x ++ sep ++ joinSep sep (y :: ys)

/-- Fuel-driven model of the JS loop
`for (let i = 0; i < t.length; i += w) parts.push(t.slice(i, i + w))`:
contiguous slices of width `w`.  `fuel ≥ t.length` suffices when `1 ≤ w`. -/
def sliceFuel (w : Nat) : Nat → Str → List Str
  | _, [] => []
  | 0, t => [t]
  | fuel + 1, c :: rest => (c :: rest).take w :: sliceFuel w fuel ((c :: rest).drop w)

def sliceEvery (w : Nat) (t : Str) : List Str := sliceFuel w t.length t

/-- The slice width of the terminal character-slicing fallback
(`routes.ts` lines 81–83): estimate characters per token and derive
`max(200, floor(maxTokens * charsPerToken))`. -/
def approxChars (cnt : Str → Nat) (maxT : Nat) (t : Str) : Nat :=
  max 200 (maxT * max 1 (t.length / max 1 (cnt t)))

/-- Terminal character slicing of `recursiveSplit` (`routes.ts` lines
80–89): cut into `approxChars`-wide slices, trim each, drop empties. -/
def charSlices (cnt : Str → Nat) (maxT : Nat) (t : Str) : List Str :=
  ((sliceEvery (approxChars cnt maxT t) t).map jsTrim).filter (fun p => !p.isEmpty)

/-- `DEFAULT_SEPARATORS = ["\n\n", "\n", ". ", " ", ""]` (`routes.ts` line 67). -/
def defaultSeparators : List Str :=
  [strL "\n\n", strL "\n", strL ". ", strL " ", strL ""]

/-- `recursiveSplit` (`routes.ts` lines 69–102), with the level counter
replaced by the suffix of the separator list still to be tried
(`seps = separators.drop level`); `level >= separators.length - 1`
corresponds to `seps` having at most one element.  Each part produced by a
split is trimmed and empty parts are dropped (`filter(Boolean)`); parts that
fit the budget are emitted, others recurse at the next level. -/
def recursiveSplitGo (cnt : Str → Nat) (maxT : Nat) : List Str → Str → List Str
  | sep :: sep₂ :: rest, text =>
    let t := jsTrim text
    if t.isEmpty then []
    else if cnt t ≤ maxT then [t]
    else
      (((splitOnL sep t).map jsTrim).filter (fun p => !p.isEmpty)).flatMap
        (fun part =>
          if cnt part ≤ maxT then [part]
          else recursiveSplitGo cnt maxT (sep₂ :: rest) part)
  | _, text =>
    let t := jsTrim text
    if t.isEmpty then []
    else if cnt t ≤ maxT then [t]
    else charSlices cnt maxT t

def recursiveSplit (text : Str) (cnt : Str → Nat) (maxT : Nat) : List Str :=
  recursiveSplitGo cnt maxT defaultSeparators text

example : recursiveSplit (strL "ab. cd") lenTok 3 = [strL "ab", strL "cd"] := by decide

example : recursiveSplit (strL "A short paragraph.") lenTok 100 =
    [strL "A short paragraph."] := by decide

/-! ## Chunk assembler (`assembleChunks`, `routes.ts` lines 104–156) -/

structure Chunk where
  text : Str
  tokenCount : Nat
deriving DecidableEq

/-- The assembler's running buffer: accumulated chunks, current buffer text
and its token count. -/
structure AsmSt where
  chunks : List Chunk
  ct : Str
  tok : Nat

def nl2 : Str := strL "\n\n"

/-- `pushChunk` (`routes.ts` lines 114–126): flush the buffer as a chunk
(text trimmed, token count as last recomputed); with positive overlap the
buffer is re-seeded with the tail `overlapTokens * charsPerToken` characters
of the flushed text (JS `slice(-overlapChars)`), otherwise reset. -/
def pushChunk (cnt : Str → Nat) (v : Nat) (st : AsmSt) : AsmSt :=
  if st.ct.isEmpty then st
  else
    let chunks' := st.chunks ++ [⟨jsTrim st.ct, st.tok⟩]
    if 0 < v then
      let cpt := max 1 (st.ct.length / max 1 st.tok)
      let oc := v * cpt
      let ct' := st.ct.drop (st.ct.length - oc)
      { chunks := chunks', ct := ct', tok := cnt ct' }
    else
      { chunks := chunks', ct := [], tok := 0 }

/-- One iteration of the inner piece loop of the oversized-segment case
(`routes.ts` lines 134–140): flush when the piece would overflow, then
append the piece to the buffer with a blank-line join and recompute. -/
def asmFoldPiece (cnt : Str → Nat) (c v : Nat) (st : AsmSt) (piece : Str) : AsmSt :=
  let pt := cnt piece
  let st₁ := if c < st.tok + pt then pushChunk cnt v st else st
  let ct' := if st₁.ct.isEmpty then piece else st₁.ct ++ nl2 ++ piece
  { chunks := st₁.chunks, ct := ct', tok := cnt ct' }

/-- One iteration of the segment loop of `assembleChunks` (`routes.ts`
lines 128–152). -/
def asmStep (cnt : Str → Nat) (c v : Nat) (st : AsmSt) (seg : Str) : AsmSt :=
  let segT := cnt seg
  if c ≤ segT then
    let cpt := max 1 (seg.length / max 1 segT)
    let approx := max 300 (c * cpt)
    ((sliceEvery approx seg).map jsTrim).foldl (asmFoldPiece cnt c v) st
  else if st.tok + segT ≤ c then
    let ct' := if st.ct.isEmpty then seg else st.ct ++ nl2 ++ seg
    { chunks := st.chunks, ct := ct', tok := cnt ct' }
  else
    let st₁ := pushChunk cnt v st
    { chunks := st₁.chunks, ct := seg, tok := cnt seg }

/-- `assembleChunks(segments, tokenizer, chunkSizeTokens, overlapTokens)`. -/
def assembleChunks (segs : List Str) (cnt : Str → Nat) (c v : Nat) : List Chunk :=
  (pushChunk cnt v (segs.foldl (asmStep cnt c v) ⟨[], [], 0⟩)).chunks

example : assembleChunks [strL "ab", strL "cd"] lenTok 4 0 =
    [⟨strL "ab\n\ncd", 6⟩] := by decide

example : assembleChunks [strL "ab", strL "cd"] lenTok 10 0 =
    [⟨strL "ab\n\ncd", 6⟩] := by decide

/-! ## JSON values and the embedding clients

Upstream responses are JSON; they are modelled by the mutual inductive
`JVal`/`JList`/`JObj` (numbers as `Int`: embedding components are only
collected, never computed with).  A vector (`number[]` in the source) is the
element list of a JSON array, `JList`. -/

mutual
inductive JVal where
  | null : JVal
  | bool : Bool → JVal
  | num : Int → JVal
  | str : Str → JVal
  | arr : JList → JVal
  | obj : JObj → JVal
inductive JList where
  | nil : JList
  | cons : JVal → JList → JList
inductive JObj where
  | nil : JObj
  | cons : Str → JVal → JObj → JObj
end

abbrev Vec := JList

def jlistToList : JList → List JVal
  | .nil => []
  | .cons x tl => x :: jlistToList tl

/-- Object property lookup.  `JSON.parse` keeps the last of duplicate keys,
hence the recursion prefers later fields. -/
def getField : JObj → Str → Option JVal
  | .nil, _ => none
  | .cons k v tl, key =>
    match getField tl key with
    | some v' => some v'
    | none => if k = key then some v else none

def jfield (j : JVal) (k : Str) : Option JVal :=
  match j with
  | .obj fs => getField fs k
  | _ => none

def jfield2 (j : JVal) (k₁ k₂ : Str) : Option JVal :=
  match jfield j k₁ with
  | some v => jfield v k₂
  | none => none

/-- JS falsiness of a JSON value (`!value`). -/
def jFalsy : JVal → Bool
  | .null => true
  | .bool b => !b
  | .num n => n == 0
  | .str s => s.isEmpty
  | .arr _ => false
  | .obj _ => false

/-- `isNumberArray` (`pinecone.ts` lines 182–183): a (JSON) array whose
length is positive and whose first element is a number. -/
def isNumArr : JVal → Bool
  | .arr (.cons (.num _) _) => true
  | _ => false

def asNumArr : JVal → Option JList
  | .arr (.cons (.num n) tl) => some (.cons (.num n) tl)
  | _ => none

def asNumArrO (o : Option JVal) : Option JList :=
  match o with
  | some v => asNumArr v
  | none => none

def firstSome : List (Option JList) → Option JList
  | [] => none
  | some x :: _ => some x
  | none :: rest => firstSome rest

def sEmbeddings : Str := strL "embeddings"
def sEmbedding : Str := strL "embedding"
def sValues : Str := strL "values"
def sVector : Str := strL "vector"
def sResult : Str := strL "result"
def sData : Str := strL "data"

/-- `normalizeEmbedding` (`pinecone.ts` lines 185–197): null for falsy
values, a number array is returned as-is, non-objects are rejected, and for
objects the fields `embedding`, `values`, `vector`, `embedding.values`,
`vector.values` are tried in that order. -/
def normalizeEmbedding (v : JVal) : Option JList :=
  if jFalsy v then none
  else
    match asNumArr v with
    | some xs => some xs
    | none =>
      match v with
      | .obj fs =>
        firstSome
          [ asNumArrO (getField fs sEmbedding),
            asNumArrO (getField fs sValues),
            asNumArrO (getField fs sVector),
            asNumArrO (match getField fs sEmbedding with
                       | some e => jfield e sValues
                       | none => none),
            asNumArrO (match getField fs sVector with
                       | some e => jfield e sValues
                       | none => none) ]
      | _ => none

/-- The recognised response shapes of `geminiEmbed` (`pinecone.ts` lines
204–223): `j.embeddings`, a truthy `j.embedding`, `j.result.embeddings`,
`j.data`, each item normalised (`pushEmbedding` skips unnormalisable
items). -/
def collectPinecone (j : JVal) : List Vec :=
  match jfield j sEmbeddings with
  | some (.arr xs) => (jlistToList xs).filterMap normalizeEmbedding
  | _ =>
    match jfield j sEmbedding with
    | some e =>
      if jFalsy e then collectPineconeAlt j
      else
        match normalizeEmbedding e with
        | some vec => [vec]
        | none => []
    | none => collectPineconeAlt j
where
  collectPineconeAlt (j : JVal) : List Vec :=
    match jfield2 j sResult sEmbeddings with
    | some (.arr xs) => (jlistToList xs).filterMap normalizeEmbedding
    | _ =>
      match jfield j sData with
      | some (.arr xs) => (jlistToList xs).filterMap normalizeEmbedding
      | _ => []

mutual
/-- The `walk` fallback of `geminiEmbed` (`pinecone.ts` lines 232–248):
depth-first collection of every value `normalizeEmbedding` accepts, not
descending into a value once it is accepted.  In the source the function
first returns on falsy values and on a successful `normalizeEmbedding`, then
recurses into arrays and objects; primitives yield nothing.  Arrays and
objects are never falsy and `normalizeEmbedding` is `none` on every truthy
primitive, so the per-constructor form below is the same function. -/
def walkCollect : JVal → List Vec
  | .arr xs =>
    (match normalizeEmbedding (.arr xs) with
     | some vec => [vec]
     | none => walkCollectL xs)
  | .obj fs =>
    (match normalizeEmbedding (.obj fs) with
     | some vec => [vec]
     | none => walkCollectO fs)
  | _ => []
def walkCollectL : JList → List Vec
  | .nil => []
  | .cons x tl => walkCollect x ++ walkCollectL tl
def walkCollectO : JObj → List Vec
  | .nil => []
  | .cons _ v tl => walkCollect v ++ walkCollectO tl
end

inductive GemErr where
  | noApiKey : GemErr
  | httpFailed : Nat → GemErr
  | nonJson : GemErr
  | unexpectedResponse : Nat → Nat → GemErr
deriving DecidableEq

/-- Response of one HTTP round-trip: status, and the parsed JSON body
(`none` models a body `JSON.parse` rejects). -/
structure HttpResp where
  status : Nat
  body : Option JVal

/-- `res.ok`: status in the 200–299 range. -/
def httpOk (s : Nat) : Bool := 200 ≤ s && s ≤ 299

/-- Response handling of `geminiEmbed` (`lib/gemini.ts` = `pinecone.ts`
lines 130–254, the operative second declaration): collect the recognised
shapes; on an exact count match return them; otherwise run the `walk`
fallback and, when it finds at least as many numeric arrays as requested,
return the first `texts.length` of them; otherwise fail. -/
def geminiEmbedParse (j : JVal) (nTexts : Nat) : Except GemErr (List Vec) :=
  let embeddings := collectPinecone j
  if embeddings.length = nTexts then .ok embeddings
  else
    let found := walkCollect j
    if nTexts ≤ found.length then .ok (found.take nTexts)
    else .error (.unexpectedResponse nTexts embeddings.length)

/-- `geminiEmbed(texts, model)`: single attempt, no retry.  The network is
abstracted as the `resp` the single `fetch` yields. -/
def geminiEmbed (hasKey : Bool) (resp : HttpResp) (texts : List Str) :
    Except GemErr (List Vec) :=
  if !hasKey then .error .noApiKey
  else if texts.isEmpty then .ok []
  else if !httpOk resp.status then .error (.httpFailed resp.status)
  else
    match resp.body with
    | none => .error .nonJson
    | some j => geminiEmbedParse j texts.length

/-! ## Batch embedding client (`geminiEmbeddingsBatch`, `routes.ts` lines 158–288) -/

def anyArr : JVal → Option JList
  | .arr xs => some xs
  | _ => none

/-- Item handling of the `j.embeddings` branch (`routes.ts` lines 221–231):
`it.embedding`, then `it` itself, then `it.vector`, then `it.values`, each
accepted whenever `Array.isArray` holds. -/
def batchItem (it : JVal) : Option JList :=
  match asNumArrAny (jfield it sEmbedding) with
  | some xs => some xs
  | none =>
    match anyArr it with
    | some xs => some xs
    | none =>
      match asNumArrAny (jfield it sVector) with
      | some xs => some xs
      | none => asNumArrAny (jfield it sValues)
where
  asNumArrAny (o : Option JVal) : Option JList :=
    match o with
    | some v => anyArr v
    | none => none

/-- Item handling of the `j.result` / `j.data` branches (`routes.ts`
lines 238–261): `it.embedding`, then `it` itself. -/
def resultItem (it : JVal) : Option JList :=
  match batchItem.asNumArrAny (jfield it sEmbedding) with
  | some xs => some xs
  | none => anyArr it

mutual
/-- The walk fallback of `geminiEmbeddingsBatch` (`routes.ts` lines
263–280): collect every array whose first element is a number, otherwise
descend into arrays and objects; primitives are skipped by the
`typeof o !== "object"` guard and `null` by the falsiness guard. -/
def rWalk : JVal → List Vec
  | .arr xs =>
    (match asNumArr (.arr xs) with
     | some v => [v]
     | none => rWalkL xs)
  | .obj fs => rWalkO fs
  | _ => []
def rWalkL : JList → List Vec
  | .nil => []
  | .cons x tl => rWalk x ++ rWalkL tl
def rWalkO : JObj → List Vec
  | .nil => []
  | .cons _ v tl => rWalk v ++ rWalkO tl
end

/-- The full shape-normalisation chain of `geminiEmbeddingsBatch`
(`routes.ts` lines 217–281): batch shape, single shape, `result.embeddings`,
bare `result` array, `data` array, then the walk fallback. -/
def collectBatch (j : JVal) : List Vec :=
  match jfield j sEmbeddings with
  | some (.arr xs) => (jlistToList xs).filterMap batchItem
  | _ =>
    match jfield j sEmbedding with
    | some e =>
      (match jFalsy e, anyArr e with
       | false, some xs => [xs]
       | _, _ => collectBatchAlt j)
    | none => collectBatchAlt j
where
  collectBatchAlt (j : JVal) : List Vec :=
    match jfield2 j sResult sEmbeddings with
    | some (.arr xs) => (jlistToList xs).filterMap resultItem
    | _ =>
      match jfield j sResult with
      | some (.arr xs) => (jlistToList xs).filterMap resultItem
      | _ =>
        match jfield j sData with
        | some (.arr xs) => (jlistToList xs).filterMap resultItem
        | _ => rWalk j

inductive EmbedError where
  | noApiKey : EmbedError
  | httpFailed : Nat → EmbedError
  | invalidJson : EmbedError
  | countMismatch : Nat → Nat → EmbedError
  | retriesExhausted : EmbedError
deriving DecidableEq

/-- The retry loop of `geminiEmbeddingsBatch` (`routes.ts` lines 189–288).
`resp i` is the response of the `(i+1)`-th `fetch`; `rem` is
`maxRetries - attempt` at the top of the `while`.  A non-OK status retries
only when it is `≥ 500` **and** another loop iteration remains
(`attempt < maxRetries` after the increment, i.e. `1 ≤ rem` here);
otherwise it throws `Gemini failed <status>` (constructor `httpFailed`).
The loop can only fall through to the final
`Gemini embedding request retries exhausted` throw (constructor
`retriesExhausted`) when it runs zero iterations. -/
def embedAttempts (nTexts : Nat) (resp : Nat → HttpResp) :
    Nat → Nat → Except EmbedError (List Vec)
  | _, 0 => .error .retriesExhausted
  | attempt, rem + 1 =>
    let r := resp attempt
    if !httpOk r.status then
      if 500 ≤ r.status ∧ 1 ≤ rem then embedAttempts nTexts resp (attempt + 1) rem
      else .error (.httpFailed r.status)
    else
      match r.body with
      | none => .error .invalidJson
      | some j =>
        let embeddings := collectBatch j
        if embeddings.length = nTexts then .ok embeddings
        else .error (.countMismatch embeddings.length nTexts)

/-- `geminiEmbeddingsBatch(texts, model, maxRetries)` (`routes.ts` line
158): missing key fails fast, an empty batch returns `[]` without any
network call, otherwise the retry loop runs. -/
def geminiEmbeddingsBatch (hasKey : Bool) (texts : List Str)
    (resp : Nat → HttpResp) (maxRetries : Nat) : Except EmbedError (List Vec) :=
  if !hasKey then .error .noApiKey
  else if texts.isEmpty then .ok []
  else embedAttempts texts.length resp 0 maxRetries

example :
    geminiEmbeddingsBatch true [strL "x"] (fun _ => ⟨503, none⟩) 3 =
      .error (.httpFailed 503) := by rfl

example :
    geminiEmbeddingsBatch true [strL "x"] (fun _ => ⟨503, none⟩) 0 =
      .error .retriesExhausted := by rfl

/-! ## Ingestion orchestrator (`processPage`, `routes.ts` lines 410–452)

The per-page loop over the assembled chunk list: batches of `batchSize`
chunks are embedded, turned into vector records and upserted; an inserted
counter and a bounded preview sample are accumulated.  Page-text extraction
and the split/assemble calls (lines 411–415) happen upstream of this loop,
so the model takes the chunk list as input.  The two remote calls are
abstracted as function parameters; the list of argument lists passed to the
upsert client is returned so that theorems can speak about the calls made.
A thrown error aborts the remaining batches (modelled with `Except`). -/

structure VecRecord where
  id : Str
  values : Vec
  mBucket : Str
  mPath : Str
  mPage : Nat
  mChunkIndex : Nat
  mTokenCount : Nat
  mPreview : Str

structure PreviewEntry where
  id : Str
  page : Nat
  tokenCount : Nat
  textPreview : Str

structure PageState where
  inserted : Nat
  preview : List PreviewEntry

inductive PageErr where
  | embedFailed : EmbedError → PageErr
  | upsertFailed : Str → PageErr

/-- `id = `${bucket}::${path}::p${p}::c${chunkIndex}`` (`routes.ts` line
426). -/
def mkRecordId (bucket path : Str) (p k : Nat) : Str :=
  bucket ++ strL "::" ++ path ++ strL "::p" ++ strL (toString p) ++
    strL "::c" ++ strL (toString k)

def dfltChunk : Chunk := ⟨[], 0⟩

/-- `vectors = embeddings.map((vec, idx) => ...)` (`routes.ts` lines
424–436); `i` is the start index of the batch, so `chunkIndex = i + idx`.
`batch[idx]!` is modelled with `getD`: the JS non-null assertion can only be
exercised when the embedding client returns more vectors than texts, which
it never does (see the length theorems below). -/
def mkVectors (bucket path : Str) (p : Nat) :
    Nat → List Vec → List Chunk → List VecRecord
  | _, [], _ => []
  | i, vec :: more, batch =>
    { id := mkRecordId bucket path p i
      values := vec
      mBucket := bucket
      mPath := path
      mPage := p
      mChunkIndex := i
      mTokenCount := (batch.headD dfltChunk).tokenCount
      mPreview := (batch.headD dfltChunk).text.take 300 } ::
      mkVectors bucket path p (i + 1) more (batch.drop 1)

/-- The preview loop (`routes.ts` lines 441–448): walk the batch's vectors
and append entries while the sample holds fewer than `previewChunks`
entries. -/
def accPreviewGo (k : Nat) (p : Nat) :
    List VecRecord → List Chunk → List PreviewEntry → List PreviewEntry
  | [], _, pv => pv
  | v :: vs, batch, pv =>
    if pv.length < k then
      accPreviewGo k p vs (batch.drop 1)
        (pv ++ [{ id := v.id
                  page := p
                  tokenCount := (batch.headD dfltChunk).tokenCount
                  textPreview := (batch.headD dfltChunk).text.take 400 }])
    else pv

/-- Batching of the chunk list: `for (let i = 0; i < chunks.length;
i += batchSize) chunks.slice(i, i + batchSize)`.  `fuel ≥ chunks.length`
suffices when `1 ≤ k`; the source's loop does not terminate for
`batchSize = 0`, which no caller uses. -/
def chunkListF (k : Nat) : Nat → List Chunk → List (List Chunk)
  | _, [] => []
  | 0, xs => [xs]
  | fuel + 1, x :: xs => ((x :: xs).take k) :: chunkListF k fuel ((x :: xs).drop k)

/-- The batch loop (`routes.ts` lines 418–449) over an already-batched
chunk list, carrying the batch start index `i` (stepped by `batchSize`) and
the accumulated state.  Returns the `vectors` arguments of the
`pineconeUpsertBatch` calls that were made, and either the final state or
the error that aborted the loop. -/
def runBatches (embedB : List Str → Except EmbedError (List Vec))
    (upsertB : List VecRecord → Except Str Unit)
    (bucket path : Str) (p bs k : Nat) :
    List (List Chunk) → Nat → PageState →
      List (List VecRecord) × Except PageErr PageState
  | [], _, st => ([], .ok st)
  | batch :: more, i, st =>
    match embedB (batch.map (fun c => c.text)) with
    | .error e => ([], .error (.embedFailed e))
    | .ok embeddings =>
      let vectors := mkVectors bucket path p i embeddings batch
      match upsertB vectors with
      | .error m => ([], .error (.upsertFailed m))
      | .ok _ =>
        let st' : PageState :=
          { inserted := st.inserted + vectors.length
            preview := accPreviewGo k p vectors batch st.preview }
        let r := runBatches embedB upsertB bucket path p bs k more (i + bs) st'
        (vectors :: r.1, r.2)

/-- The chunk-processing part of `processPage` starting from a fresh page
state (`insertedCount` and `preview` both start empty at `routes.ts` lines
405–406 for the whole document; per-page composition is sequential). -/
def processPageChunks (embedB : List Str → Except EmbedError (List Vec))
    (upsertB : List VecRecord → Except Str Unit)
    (bucket path : Str) (p bs k : Nat) (chunks : List Chunk) :
    List (List VecRecord) × Except PageErr PageState :=
  runBatches embedB upsertB bucket path p bs k
    (chunkListF bs chunks.length chunks) 0 ⟨0, []⟩

/-- An embedding client that always succeeds, embedding each text with
`f` (used to state properties that hold when the remote calls succeed). -/
def okEmbed (f : Str → Vec) : List Str → Except EmbedError (List Vec) :=
  fun texts => .ok (texts.map f)

def okUpsert : List VecRecord → Except Str Unit := fun _ => .ok ()

/-- The stored id set of the remote index after upserting `ids`: upserts
overwrite per id, so the store is a set of ids unioned with the new ids. -/
def upsertIdSet (s : Finset Str) (ids : List Str) : Finset Str :=
  s ∪ ids.toFinset

/-! ## Query orchestrator (`app/api/chat/route.ts` and `pineconeQuery`) -/

structure MatchMeta where
  fileName : Option Str
  name : Option Str
  path : Option Str
  summary : Option Str
  text : Option Str
deriving DecidableEq

/-- A Pinecone match `{ id, score, metadata }`.  Scores are JS numbers; the
model restricts them to integers, on which `Math.round(score * 100)` is
exactly `score * 100`. -/
structure PMatch where
  id : Str
  score : Option Int
  metadata : Option MatchMeta
deriving DecidableEq

structure Mapped where
  id : Str
  name : Str
  path : Str
  excerpt : Str
  score : Int
deriving DecidableEq

/-- JS `a || b` on strings: the empty string is falsy. -/
def jsOrStr (a b : Str) : Str := if a.isEmpty then b else a

def optTruthy : Option Str → Option Str
  | some s => if s.isEmpty then none else some s
  | none => none

/-- `file.replace(/\.[^/.]+$/, "")`: strip a trailing `.ext` where `ext` is
a non-empty run of characters other than `.` and `/`. -/
def stripExt (t : Str) : Str :=
  let rt := t.reverse
  let run := rt.takeWhile (fun c => !(c == '.' || c == '/'))
  if !run.isEmpty && ((rt.drop run.length).head? == some '.') then
    ((rt.drop run.length).drop 1).reverse
  else t

/-- `file.replace(/^[0-9-_]+_/, "")`: the greedy match consumes the leading
run of `[0-9-_]` characters up to (and including) the last `_` of that run,
provided at least one run character precedes that `_`. -/
def stripId (t : Str) : Str :=
  let run := t.takeWhile (fun c => c.isDigit || c == '-' || c == '_')
  if '_' ∈ run then
    let j := run.length - 1 - run.reverse.indexOf '_'
    if 1 ≤ j then t.drop (j + 1) else t
  else t

/-- `file.replace(/[_-]+/g, " ")`: every maximal run of `_`/`-` becomes one
space (fuel-driven; `fuel ≥ t.length` suffices). -/
def collapseFuel : Nat → Str → Str
  | _, [] => []
  | 0, t => t
  | fuel + 1, c :: rest =>
    if c == '_' || c == '-' then
      ' ' :: collapseFuel fuel (rest.dropWhile (fun d => d == '_' || d == '-'))
    else c :: collapseFuel fuel rest

/-- `filenameToFriendlyName` (`chat/route.ts` lines 11–17). -/
def friendlyName (p : Str) : Str :=
  if p.isEmpty then strL "Unknown File"
  else
    let parts := splitOnL (strL "/") p
    let file := parts.getLastD p
    jsTrim (collapseFuel (stripId (stripExt file)).length (stripId (stripExt file)))

/-- The per-match mapping of `fetchMatchingResumes` (`chat/route.ts` lines
40–50). -/
def mapMatch (m : PMatch) : Mapped :=
  let meta := m.metadata.getD ⟨none, none, none, none, none⟩
  { id := m.id
    name := ((optTruthy meta.fileName).getD
      ((optTruthy meta.name).getD (friendlyName (meta.path.getD m.id))))
    path := meta.path.getD (strL "no-path")
    excerpt :=
      match meta.summary with
      | some s => s
      | none =>
        match meta.text with
        | some t => t.take 500
        | none => []
    score := (m.score.getD 0) * 100 }

def lookupKey : List (Str × Mapped) → Str → Option Mapped
  | [], _ => none
  | (k, m) :: tl, key => if k = key then some m else lookupKey tl key

def replaceKey (acc : List (Str × Mapped)) (key : Str) (m : Mapped) :
    List (Str × Mapped) :=
  acc.map (fun kv => if kv.1 = key then (key, m) else kv)

/-- `deduplicateMatches` (`chat/route.ts` lines 20–29): a JS `Map` keyed by
`m.path || m.id`, keeping the higher score on key collision; `Map.set` on an
existing key keeps its insertion position, and `Array.from(values())` is in
insertion order — modelled by an ordered association list. -/
def dedupGo : List (Str × Mapped) → List Mapped → List (Str × Mapped)
  | acc, [] => acc
  | acc, m :: ms =>
    let key := jsOrStr m.path m.id
    match lookupKey acc key with
    | none => dedupGo (acc ++ [(key, m)]) ms
    | some prev =>
      if prev.score < m.score then dedupGo (replaceKey acc key m) ms
      else dedupGo acc ms

def deduplicateMatches (ms : List Mapped) : List Mapped :=
  (dedupGo [] ms).map (fun kv => kv.2)

/-- `fetchMatchingResumes` (`chat/route.ts` lines 32–58): embed the
requirements as a batch of one, query the index with the hard-coded
`topK = 10`, map the matches, deduplicate, return the first 5; any thrown
error is swallowed into `[]`.  The extraction `search?.matches || []` of the
raw query response is abstracted into the `queryB` collaborator. -/
def fetchMatchingResumes (embedB : List Str → Except GemErr (List Vec))
    (queryB : Vec → Nat → Except Str (List PMatch)) (requirements : Str) :
    List Mapped :=
  match embedB [requirements] with
  | .error _ => []
  | .ok es =>
    match queryB (es.headD .nil) 10 with
    | .error _ => []
    | .ok ms => (deduplicateMatches (ms.map mapMatch)).take 5

/-- `pineconeQuery` (`lib/pinecone.ts` lines 14–40): a non-OK status throws,
otherwise the parsed JSON body is returned verbatim (`return j`). -/
def pineconeQuery (_vector : Vec) (_topK : Nat) (r : HttpResp) :
    Except Str JVal :=
  if !httpOk r.status then .error (strL "Pinecone query failed")
  else
    match r.body with
    | some j => .ok j
    | none => .error (strL "Pinecone query returned invalid JSON")

/-! ## Exit paths of the ingestion `POST` handler (`routes.ts` lines 370–518)

Control-flow model of the handler around the tokenizer lifetime: the
early-return rejections (missing `bucket`/`path` → 400, download failure →
500, oversize → 413) happen before `createTokenizer` (line 403); the page
loop then runs with the tokenizer live; `tokenizer.free?.()` (line 506) is
executed only when the loop completes normally — a thrown error transfers
control to the `catch` (lines 514–517), which returns a 500 response without
freeing.  `run` is the outcome and event trace of the page-processing
region. -/

inductive Ev where
  | createTok : Ev
  | freeTok : Ev
  | upsertCall : Ev
deriving DecidableEq

structure PostResult where
  status : Nat
  events : List Ev
deriving DecidableEq

/-- Outcome and event trace of the page loop from a `processPageChunks`
result: one upsert event per call made, and the final state or error. -/
def pageEvOf (r : List (List VecRecord) × Except PageErr PageState) :
    Except PageErr PageState × List Ev :=
  (r.2, r.1.map (fun _ => Ev.upsertCall))

def postIngest (hasBucket hasPath : Bool) (download : Except Str Nat)
    (maxBytes : Nat) (run : Except PageErr PageState × List Ev) : PostResult :=
  if !(hasBucket && hasPath) then ⟨400, []⟩
  else
    match download with
    | .error _ => ⟨500, []⟩
    | .ok size =>
      if maxBytes < size then ⟨413, []⟩
      else
        let evs := Ev.createTok :: run.2
        match run.1 with
        | .ok _ => ⟨200, evs ++ [Ev.freeTok]⟩
        | .error _ => ⟨500, evs⟩

/-! ## General lemmas about the string model -/

theorem jsTrim_within (t : Str) : jsTrim t <:+: t := by
  have h₁ : t.dropWhile wsChar <:+ t := List.dropWhile_suffix wsChar
  have h₂ : (t.dropWhile wsChar).reverse.dropWhile wsChar <:+
      (t.dropWhile wsChar).reverse := List.dropWhile_suffix wsChar
  have h₃ : jsTrim t <+: t.dropWhile wsChar := by
    rw [← List.reverse_prefix] at *
    simpa [jsTrim] using h₂
  exact h₃.isInfix.trans h₁.isInfix

theorem nonWS_append (a b : Str) : nonWS (a ++ b) = nonWS a ++ nonWS b :=
  List.filter_append ..

theorem nonWS_dropWhile (t : Str) : nonWS (t.dropWhile wsChar) = nonWS t := by
  conv_rhs => rw [← List.takeWhile_append_dropWhile (p := wsChar) (l := t)]
  rw [nonWS_append]
  have h : nonWS (t.takeWhile wsChar) = [] := by
    rw [nonWS, List.filter_eq_nil_iff]
    intro a ha
    simp [List.mem_takeWhile_imp ha]
  rw [h, List.nil_append]

theorem nonWS_reverse (t : Str) : nonWS t.reverse = (nonWS t).reverse :=
  List.filter_reverse ..

theorem nonWS_jsTrim (t : Str) : nonWS (jsTrim t) = nonWS t := by
  rw [jsTrim, nonWS_reverse, nonWS_dropWhile, nonWS_reverse, List.reverse_reverse,
    nonWS_dropWhile]

/-! ## Lemmas about the split model -/

theorem splitFuel_ne_nil (sep : Str) : ∀ (fuel : Nat) (t : Str),
    splitFuel sep fuel t ≠ [] := by
  intro fuel t
  match fuel, t with
  | _, [] => simp [splitFuel]
  | 0, c :: rest => simp [splitFuel]
  | fuel + 1, c :: rest =>
    rw [splitFuel]
    split
    · simp
    · cases splitFuel sep fuel rest <;> simp [modHead]

theorem joinSep_cons_ne (sep x : Str) (l : List Str) (h : l ≠ []) :
    joinSep sep (x :: l) = x ++ sep ++ joinSep sep l := by
  cases l with
  | nil => exact absurd rfl h
  | cons y ys => rw [joinSep]

theorem joinSep_modHead (sep : Str) (c : Char) (l : List Str) (h : l ≠ []) :
    joinSep sep (modHead c l) = c :: joinSep sep l := by
  cases l with
  | nil => exact absurd rfl h
  | cons p ps =>
    cases ps with
    | nil => simp [modHead, joinSep]
    | cons q qs => simp [modHead, joinSep]

theorem hasLead_leads {sep t : Str} (h : hasLead sep t = true) : sep <+: t := by
  rw [hasLead, beq_iff_eq] at h
  rw [← h]
  exact List.take_prefix ..

theorem joinSep_splitFuel (sep : Str) : ∀ (fuel : Nat) (t : Str), t.length ≤ fuel →
    joinSep sep (splitFuel sep fuel t) = t := by
  intro fuel
  induction fuel with
  | zero =>
    intro t ht
    have ht' : t = [] := List.eq_nil_of_length_eq_zero (Nat.le_zero.mp ht)
    subst ht'
    simp [splitFuel, joinSep]
  | succ n ih =>
    intro t ht
    cases t with
    | nil => simp [splitFuel, joinSep]
    | cons c rest =>
      rw [splitFuel]
      split
      · next hcond =>
        have hsep : ¬ sep.isEmpty := by
          rcases Bool.and_eq_true .. |>.mp hcond with ⟨h₁, _⟩
          simp_all
        have hpre : sep <+: c :: rest :=
          hasLead_leads (Bool.and_eq_true .. |>.mp hcond).2
        have hlen : 1 ≤ sep.length := by
          cases hs : sep with
          | nil => simp [hs, List.isEmpty] at hsep
          | cons _ _ => simp [hs]
        have ht' : rest.length + 1 ≤ n + 1 := by simpa using ht
        have hdrop : ((c :: rest).drop sep.length).length ≤ n := by
          simp only [List.length_drop, List.length_cons]
          omega
        rw [joinSep_cons_ne sep [] _ (splitFuel_ne_nil sep n _), ih _ hdrop,
          List.nil_append]
        obtain ⟨u, hu⟩ := hpre
        conv_rhs => rw [← hu]
        rw [← hu, List.drop_left' rfl]
      · next =>
        have hrest : rest.length ≤ n := by
          simp only [List.length_cons] at ht
          omega
        rw [joinSep_modHead sep c _ (splitFuel_ne_nil sep n rest), ih _ hrest]

theorem splitFuel_no_occ (sep : Str) : ∀ (fuel : Nat) (t : Str),
    ¬ sep <:+: t → splitFuel sep fuel t = [t] := by
  intro fuel
  induction fuel with
  | zero =>
    intro t h
    cases t <;> simp [splitFuel]
  | succ n ih =>
    intro t h
    cases t with
    | nil => simp [splitFuel]
    | cons c rest =>
      rw [splitFuel]
      split
      · next hcond =>
        exact absurd (hasLead_leads (Bool.and_eq_true .. |>.mp hcond).2).isInfix h
      · next =>
        have hrest : ¬ sep <:+: rest := fun hx => h (List.infix_cons hx)
        rw [ih rest hrest]
        simp [modHead]

theorem splitFuel_head_leads (sep : Str) : ∀ (fuel : Nat) (t p : Str)
    (ps : List Str), splitFuel sep fuel t = p :: ps → p <+: t := by
  intro fuel
  induction fuel with
  | zero =>
    intro t p ps h
    cases t with
    | nil => simp [splitFuel] at h; simp [h.1]
    | cons c rest => simp [splitFuel] at h; simp [h.1]
  | succ n ih =>
    intro t p ps h
    cases t with
    | nil => simp [splitFuel] at h; simp [h.1]
    | cons c rest =>
      rw [splitFuel] at h
      split at h
      · rw [List.cons_eq_cons] at h
        rw [← h.1]
        exact List.nil_prefix
      · rcases hS : splitFuel sep n rest with _ | ⟨q, qs⟩
        · exact absurd hS (splitFuel_ne_nil sep n rest)
        · rw [hS] at h
          simp only [modHead, List.cons_eq_cons] at h
          rw [← h.1]
          exact List.cons_prefix_cons.mpr ⟨rfl, ih rest q qs hS⟩

theorem mem_splitFuel_within (sep : Str) : ∀ (fuel : Nat) (t x : Str),
    x ∈ splitFuel sep fuel t → x <:+: t := by
  intro fuel
  induction fuel with
  | zero =>
    intro t x h
    cases t with
    | nil => simp [splitFuel] at h; simp [h]
    | cons c rest => simp [splitFuel] at h; simp [h]
  | succ n ih =>
    intro t x h
    cases t with
    | nil => simp [splitFuel] at h; simp [h]
    | cons c rest =>
      rw [splitFuel] at h
      split at h
      · rcases List.mem_cons.mp h with h₁ | h₁
        · simp [h₁]
        · have hx : x <:+: (c :: rest).drop sep.length := ih _ x h₁
          exact hx.trans (List.drop_suffix ..).isInfix
      · rcases hS : splitFuel sep n rest with _ | ⟨q, qs⟩
        · exact absurd hS (splitFuel_ne_nil sep n rest)
        · rw [hS] at h
          simp only [modHead] at h
          rcases List.mem_cons.mp h with h₁ | h₁
          · have hq : q <+: rest := splitFuel_head_leads sep n rest q qs hS
            rw [h₁]
            exact (List.cons_prefix_cons.mpr ⟨rfl, hq⟩).isInfix
          · exact List.infix_cons (ih rest x (by rw [hS]; exact List.mem_cons_of_mem _ h₁))

theorem joinSep_splitOnL (sep t : Str) : joinSep sep (splitOnL sep t) = t :=
  joinSep_splitFuel sep t.length t (Nat.le_refl _)

theorem splitOnL_no_occ {sep t : Str} (h : ¬ sep <:+: t) : splitOnL sep t = [t] :=
  splitFuel_no_occ sep t.length t h

theorem mem_splitOnL_within {sep t x : Str} (h : x ∈ splitOnL sep t) : x <:+: t :=
  mem_splitFuel_within sep t.length t x h

theorem nonWS_joinSep (sep : Str) (hsep : nonWS sep = []) : ∀ l : List Str,
    nonWS (joinSep sep l) = nonWS l.flatten := by
  intro l
  induction l with
  | nil => simp [joinSep]
  | cons x ys ih =>
    cases ys with
    | nil => simp [joinSep]
    | cons y ys' =>
      rw [joinSep_cons_ne sep x _ (by simp), List.flatten_cons, nonWS_append,
        nonWS_append, nonWS_append, hsep, ih]
      simp

theorem flatten_sliceFuel (w : Nat) (hw : 1 ≤ w) : ∀ (fuel : Nat) (t : Str),
    t.length ≤ fuel → (sliceFuel w fuel t).flatten = t := by
  intro fuel
  induction fuel with
  | zero =>
    intro t ht
    have ht' : t = [] := List.eq_nil_of_length_eq_zero (Nat.le_zero.mp ht)
    subst ht'
    simp [sliceFuel]
  | succ n ih =>
    intro t ht
    cases t with
    | nil => simp [sliceFuel]
    | cons c rest =>
      have ht' : rest.length + 1 ≤ n + 1 := by simpa using ht
      have hdrop : ((c :: rest).drop w).length ≤ n := by
        simp only [List.length_drop, List.length_cons]
        omega
      rw [sliceFuel, List.flatten_cons, ih _ hdrop, List.take_append_drop]

theorem nonWS_trimFilter (l : List Str) :
    nonWS (((l.map jsTrim).filter (fun p => !p.isEmpty)).flatten) = nonWS l.flatten := by
  induction l with
  | nil => simp
  | cons x xs ih =>
    simp only [List.map_cons, List.filter_cons]
    split
    · rw [List.flatten_cons, List.flatten_cons, nonWS_append, nonWS_append,
        nonWS_jsTrim, ih]
    · next hcond =>
      have hx : jsTrim x = [] := by
        rcases h : jsTrim x with _ | _
        · rfl
        · simp [h] at hcond
      rw [List.flatten_cons, nonWS_append, ih]
      have : nonWS x = [] := by rw [← nonWS_jsTrim, hx]; rfl
      rw [this, List.nil_append]

theorem nonWS_charSlices (cnt : Str → Nat) (maxT : Nat) (t : Str) :
    nonWS (charSlices cnt maxT t).flatten = nonWS t := by
  rw [charSlices, nonWS_trimFilter, sliceEvery,
    flatten_sliceFuel (approxChars cnt maxT t)
      (by rw [approxChars]; omega) t.length t (Nat.le_refl _)]

theorem nonWS_flatten_flatMap (g : Str → List Str) : ∀ parts : List Str,
    (∀ p ∈ parts, nonWS (g p).flatten = nonWS p) →
    nonWS ((parts.flatMap g).flatten) = nonWS parts.flatten := by
  intro parts
  induction parts with
  | nil => intro _; simp
  | cons p ps ih =>
    intro h
    rw [List.flatMap_cons, List.flatten_append, nonWS_append, List.flatten_cons,
      nonWS_append, h p (List.mem_cons_self ..), ih (fun q hq => h q (List.mem_cons_of_mem _ hq))]

theorem terminal_roundtrip (cnt : Str → Nat) (maxT : Nat) (text : Str) :
    nonWS ((if (jsTrim text).isEmpty then ([] : List Str)
      else if cnt (jsTrim text) ≤ maxT then [jsTrim text]
      else charSlices cnt maxT (jsTrim text)).flatten) = nonWS text := by
  rw [← nonWS_jsTrim text]
  by_cases h₁ : (jsTrim text).isEmpty = true
  · rw [if_pos h₁, List.isEmpty_iff.mp h₁]
    rfl
  · rw [if_neg h₁]
    by_cases h₂ : cnt (jsTrim text) ≤ maxT
    · rw [if_pos h₂]
      simp
    · rw [if_neg h₂]
      rw [nonWS_charSlices, nonWS_jsTrim]

theorem recursiveSplitGo_roundtrip (cnt : Str → Nat) (maxT : Nat) :
    ∀ (seps : List Str) (text : Str),
      (∀ s ∈ seps, nonWS s = [] ∨ ¬ s <:+: text) →
      nonWS ((recursiveSplitGo cnt maxT seps text).flatten) = nonWS text := by
  intro seps
  induction seps with
  | nil =>
    intro text _
    exact terminal_roundtrip cnt maxT text
  | cons sep rest ih =>
    cases rest with
    | nil =>
      intro text _
      exact terminal_roundtrip cnt maxT text
    | cons sep₂ rest₂ =>
      intro text h
      have hgo : recursiveSplitGo cnt maxT (sep :: sep₂ :: rest₂) text =
          (if (jsTrim text).isEmpty then ([] : List Str)
           else if cnt (jsTrim text) ≤ maxT then [jsTrim text]
           else
             (((splitOnL sep (jsTrim text)).map jsTrim).filter
                 (fun p => !p.isEmpty)).flatMap
               (fun part => if cnt part ≤ maxT then [part]
                 else recursiveSplitGo cnt maxT (sep₂ :: rest₂) part)) := rfl
      rw [hgo]
      by_cases h₁ : (jsTrim text).isEmpty = true
      · rw [if_pos h₁, ← nonWS_jsTrim text, List.isEmpty_iff.mp h₁]
        rfl
      · rw [if_neg h₁]
        by_cases h₂ : cnt (jsTrim text) ≤ maxT
        · rw [if_pos h₂, ← nonWS_jsTrim text]
          simp
        · rw [if_neg h₂]
          rw [nonWS_flatten_flatMap _ _ ?parts, nonWS_trimFilter]
          case parts =>
            intro p hp
            have hpt : p <:+: jsTrim text := by
              rcases List.mem_filter.mp hp with ⟨hp', _⟩
              rcases List.mem_map.mp hp' with ⟨y, hy, rfl⟩
              exact (jsTrim_within y).trans (mem_splitOnL_within hy)
            by_cases hf : cnt p ≤ maxT
            · simp [hf]
            · rw [if_neg hf]
              refine ih p (fun s hs => ?_)
              rcases h s (List.mem_cons_of_mem _ hs) with hws | hni
              · exact Or.inl hws
              · exact Or.inr
                  (fun hx => hni (hx.trans (hpt.trans (jsTrim_within text))))
          rcases h sep (List.mem_cons_self ..) with hws | hni
          · rw [← nonWS_joinSep sep hws, joinSep_splitOnL, nonWS_jsTrim]
          · have hni' : ¬ sep <:+: jsTrim text :=
              fun hx => hni (hx.trans (jsTrim_within text))
            rw [splitOnL_no_occ hni']
            simp [nonWS_jsTrim]

/-! ## Claim theorems: splitter (C4, C5, C10) -/

/-- C4 counterexample: the claim states that no non-whitespace character —
"including separator characters such as the period in the '. ' separator" —
is dropped.  On input `"ab. cd"` with budget 3 the splitter reaches the
`". "` level; JS `split(". ")` consumes the separator, so the period (a
non-whitespace character) is lost from the output. -/
theorem recursiveSplit_drops_period_cx :
    recursiveSplit (strL "ab. cd") lenTok 3 = [strL "ab", strL "cd"] ∧
    nonWS ((recursiveSplit (strL "ab. cd") lenTok 3).flatten) = strL "abcd" ∧
    nonWS (strL "ab. cd") = strL "ab.cd" ∧
    nonWS ((recursiveSplit (strL "ab. cd") lenTok 3).flatten) ≠
      nonWS (strL "ab. cd") := by decide

/-- C4 (amended): for every text `T` in which the `". "` separator does not
occur, concatenating the segments yielded by `recursiveSplit T` reproduces
`T`'s content losslessly ignoring whitespace; when `". "` does occur and a
split consumes it, its period is dropped (see the counterexample). -/
theorem recursiveSplit_roundtrip_amended (cnt : Str → Nat) (maxT : Nat)
    (T : Str) (h : ¬ strL ". " <:+: T) :
    nonWS ((recursiveSplit T cnt maxT).flatten) = nonWS T := by
  refine recursiveSplitGo_roundtrip cnt maxT defaultSeparators T ?_
  intro s hs
  simp only [defaultSeparators, List.mem_cons] at hs
  rcases hs with rfl | rfl | rfl | rfl | rfl | hend
  · exact Or.inl (by decide)
  · exact Or.inl (by decide)
  · exact Or.inr h
  · exact Or.inl (by decide)
  · exact Or.inl (by decide)
  · simp at hend

/-- C4 witness: a concrete text without `". "`, split under a small budget,
round-trips. -/
theorem recursiveSplit_roundtrip_amended_w :
    ¬ strL ". " <:+: strL "hello world" ∧
    nonWS ((recursiveSplit (strL "hello world") lenTok 3).flatten) =
      nonWS (strL "hello world") :=
  ⟨by decide,
   recursiveSplit_roundtrip_amended lenTok 3 (strL "hello world") (by decide)⟩

/-- C5 counterexample: the claim quantifies over every text `T` with
`tokenizer.count(T) ≤ maxTokens`; for the whitespace-only text `" "` the
splitter trims to empty and produces `[]`, not the one-element list
containing `T` trimmed. -/
theorem recursiveSplit_empty_cx :
    lenTok (strL " ") ≤ 100 ∧
    recursiveSplit (strL " ") lenTok 100 = [] ∧
    recursiveSplit (strL " ") lenTok 100 ≠ [jsTrim (strL " ")] := by decide

/-- C5 (amended): for every text `T` whose trimmed form is non-empty and
fits the token budget, `recursiveSplit` yields exactly the one-element list
containing `T` trimmed (the budget check in the source is performed on the
trimmed text). -/
theorem recursiveSplit_small_fits (cnt : Str → Nat) (maxT : Nat) (T : Str)
    (h₁ : jsTrim T ≠ []) (h₂ : cnt (jsTrim T) ≤ maxT) :
    recursiveSplit T cnt maxT = [jsTrim T] := by
  have hne : (jsTrim T).isEmpty = false := by
    rcases hT : jsTrim T with _ | _
    · exact absurd hT h₁
    · rfl
  have hgo : recursiveSplit T cnt maxT =
      (if (jsTrim T).isEmpty then ([] : List Str)
       else if cnt (jsTrim T) ≤ maxT then [jsTrim T]
       else
         (((splitOnL (strL "\n\n") (jsTrim T)).map jsTrim).filter
             (fun p => !p.isEmpty)).flatMap
           (fun part => if cnt part ≤ maxT then [part]
             else recursiveSplitGo cnt maxT
               [strL "\n", strL ". ", strL " ", strL ""] part)) := rfl
  rw [hgo, hne]
  simp [h₂]

/-- C5 witness — Scenario A: input `"A short paragraph."` with budget 100
tokens returns exactly `["A short paragraph."]`. -/
theorem recursiveSplit_small_fits_w :
    jsTrim (strL "A short paragraph.") ≠ [] ∧
    lenTok (jsTrim (strL "A short paragraph.")) ≤ 100 ∧
    recursiveSplit (strL "A short paragraph.") lenTok 100 =
      [strL "A short paragraph."] :=
  ⟨by decide, by decide,
   (recursiveSplit_small_fits lenTok 100 (strL "A short paragraph.")
       (by decide) (by decide)).trans (by decide)⟩

theorem sliceFuel_length_mul (w : Nat) (hw : 1 ≤ w) : ∀ (fuel : Nat) (t : Str),
    t.length ≤ fuel → (sliceFuel w fuel t).length * w ≤ t.length + w := by
  intro fuel
  induction fuel with
  | zero =>
    intro t ht
    have ht' : t = [] := List.eq_nil_of_length_eq_zero (Nat.le_zero.mp ht)
    subst ht'
    simp [sliceFuel]
  | succ n ih =>
    intro t ht
    cases t with
    | nil => simp [sliceFuel]
    | cons c rest =>
      by_cases hlen : (c :: rest).length ≤ w
      · have hdrop : (c :: rest).drop w = [] := List.drop_eq_nil_of_le hlen
        rw [sliceFuel, hdrop]
        simp [sliceFuel]
      · have hlt : w < (c :: rest).length := Nat.lt_of_not_le hlen
        have ht' : rest.length + 1 ≤ n + 1 := by simpa using ht
        have hdl : ((c :: rest).drop w).length ≤ n := by
          simp only [List.length_drop, List.length_cons]
          omega
        have ihd := ih ((c :: rest).drop w) hdl
        rw [List.length_drop] at ihd
        rw [sliceFuel, List.length_cons, Nat.succ_mul]
        have hsub : (c :: rest).length - w + w = (c :: rest).length :=
          Nat.sub_add_cancel (Nat.le_of_lt hlt)
        calc (sliceFuel w n ((c :: rest).drop w)).length * w + w
            ≤ ((c :: rest).length - w + w) + w := by omega
          _ = (c :: rest).length + w := by rw [hsub]

/-- C10: the terminal character-slicing fallback makes progress in steps of
`approxChars ≥ 200` characters, so it yields at most
`(|t| + approxChars) / approxChars` slices — finitely many; together with
the recursion being structural on the separator-list suffix (each recursive
call of `recursiveSplitGo` consumes one separator), the splitter terminates
on every input.  Stated as: the slice width is at least 200 and the number
of emitted slices, scaled by 200, is bounded by `|t| + approxChars`. -/
theorem charSlicing_bounded (cnt : Str → Nat) (maxT : Nat) (t : Str) :
    200 ≤ approxChars cnt maxT t ∧
    (charSlices cnt maxT t).length * 200 ≤ t.length + approxChars cnt maxT t := by
  have h200 : 200 ≤ approxChars cnt maxT t := by rw [approxChars]; omega
  refine ⟨h200, ?_⟩
  have h₁ : (charSlices cnt maxT t).length ≤ (sliceEvery (approxChars cnt maxT t) t).length := by
    rw [charSlices]
    calc ((((sliceEvery (approxChars cnt maxT t) t).map jsTrim)).filter
          (fun p => !p.isEmpty)).length
        ≤ ((sliceEvery (approxChars cnt maxT t) t).map jsTrim).length :=
          List.length_filter_le ..
      _ = (sliceEvery (approxChars cnt maxT t) t).length := List.length_map ..
  have h₂ : (sliceEvery (approxChars cnt maxT t) t).length * approxChars cnt maxT t ≤
      t.length + approxChars cnt maxT t :=
    sliceFuel_length_mul (approxChars cnt maxT t) (by omega) t.length t (Nat.le_refl _)
  calc (charSlices cnt maxT t).length * 200
      ≤ (sliceEvery (approxChars cnt maxT t) t).length * 200 :=
        Nat.mul_le_mul_right 200 h₁
    _ ≤ (sliceEvery (approxChars cnt maxT t) t).length * approxChars cnt maxT t :=
        Nat.mul_le_mul_left _ h200
    _ ≤ t.length + approxChars cnt maxT t := h₂

/-! ## Claim theorems: embedding clients (C3, C1) -/

/-- C3: with the default ceiling `maxRetries = 3` and the upstream returning
503 on every attempt, the final attempt's 503 does not satisfy
`attempt < maxRetries` and therefore raises the generic
`Gemini failed 503` error (`httpFailed 503`) — the same error shape as an
immediate non-transient failure — not the distinct
`Gemini embedding request retries exhausted` error, which is reachable only
when the loop runs zero iterations (`maxRetries = 0`).  No upsert call is
made for the aborted batch. -/
theorem retries_exhausted_unreachable :
    geminiEmbeddingsBatch true [strL "x"] (fun _ => ⟨503, none⟩) 3 =
      .error (.httpFailed 503) ∧
    EmbedError.httpFailed 503 ≠ EmbedError.retriesExhausted ∧
    (processPageChunks
        (fun texts => geminiEmbeddingsBatch true texts (fun _ => ⟨503, none⟩) 3)
        okUpsert (strL "b") (strL "f.pdf") 1 2 5 [⟨strL "hello", 5⟩]).1 = [] ∧
    geminiEmbeddingsBatch true [strL "x"] (fun _ => ⟨503, none⟩) 0 =
      .error .retriesExhausted :=
  ⟨rfl, by decide, rfl, rfl⟩

theorem embedAttempts_ok_length (n : Nat) (resp : Nat → HttpResp) :
    ∀ (rem attempt : Nat) (l : List Vec),
      embedAttempts n resp attempt rem = .ok l → l.length = n := by
  intro rem
  induction rem with
  | zero =>
    intro attempt l h
    simp [embedAttempts] at h
  | succ k ih =>
    intro attempt l h
    rw [embedAttempts] at h
    split at h
    · split at h
      · exact ih _ _ h
      · simp at h
    · split at h
      · simp at h
      · dsimp only at h
        split at h
        · next hlen =>
          rw [Except.ok.injEq] at h
          rw [← h]
          exact hlen
        · simp at h

/-- C1 (amended): both embedding clients return a vector list of length
exactly `N` or fail — `geminiEmbeddingsBatch` raises a hard error whenever
its normalisation does not yield exactly `N` vectors, while `geminiEmbed`
additionally accepts an over-collected fallback walk by truncating it to the
first `N` entries (see the counterexample), still returning exactly `N`
vectors. -/
theorem geminiClients_length_exact :
    (∀ (j : JVal) (n : Nat) (l : List Vec),
        geminiEmbedParse j n = .ok l → l.length = n) ∧
    (∀ (hasKey : Bool) (texts : List Str) (resp : Nat → HttpResp)
        (maxR : Nat) (l : List Vec),
        geminiEmbeddingsBatch hasKey texts resp maxR = .ok l →
          l.length = texts.length) := by
  constructor
  · intro j n l h
    rw [geminiEmbedParse] at h
    split at h
    · next hlen =>
      rw [Except.ok.injEq] at h
      rw [← h]
      exact hlen
    · dsimp only at h
      split at h
      · next hfound =>
        rw [Except.ok.injEq] at h
        rw [← h, List.length_take]
        omega
      · simp at h
  · intro hasKey texts resp maxR l h
    rw [geminiEmbeddingsBatch] at h
    split at h
    · simp at h
    · split at h
      · next hempty =>
        rw [Except.ok.injEq] at h
        rw [← h]
        rw [List.isEmpty_iff.mp hempty]
        rfl
      · exact embedAttempts_ok_length texts.length resp maxR 0 l h

def cV1 : Vec := .cons (.num 1) .nil

def cJgood : JVal :=
  .obj (.cons sEmbeddings
    (.arr (.cons (.obj (.cons sEmbedding (.arr cV1) .nil)) .nil)) .nil)

/-- C1 witness: a well-formed single-embedding response parses to exactly
one vector in both clients. -/
theorem geminiClients_length_exact_w :
    geminiEmbedParse cJgood 1 = .ok [cV1] ∧
    ([cV1] : List Vec).length = 1 ∧
    geminiEmbeddingsBatch true [strL "x"] (fun _ => ⟨200, some cJgood⟩) 3 =
      .ok [cV1] ∧
    ([cV1] : List Vec).length = [strL "x"].length :=
  ⟨rfl, geminiClients_length_exact.1 cJgood 1 [cV1] rfl, rfl,
   geminiClients_length_exact.2 true [strL "x"] (fun _ => ⟨200, some cJgood⟩) 3
     [cV1] rfl⟩

def cV2 : Vec := .cons (.num 2) .nil

def cV3 : Vec := .cons (.num 3) .nil

def cJwalk : JVal :=
  .obj (.cons (strL "foo")
    (.arr (.cons (.arr cV1) (.cons (.arr cV2) (.cons (.arr cV3) .nil)))) .nil)

/-- C1 counterexample: on a response that matches none of the recognised
shapes but contains three numeric arrays, requested for two texts, the
fallback walk of `geminiEmbed` over-collects (3 > 2) and the client returns
the first two arrays instead of raising a hard error;
`geminiEmbeddingsBatch` on the same response raises the count-mismatch
error. -/
theorem geminiEmbed_truncates_cx :
    (walkCollect cJwalk).length = 3 ∧
    (collectPinecone cJwalk).length = 0 ∧
    geminiEmbedParse cJwalk 2 = .ok ((walkCollect cJwalk).take 2) ∧
    geminiEmbedParse cJwalk 2 = .ok [cV1, cV2] ∧
    embedAttempts 2 (fun _ => ⟨200, some cJwalk⟩) 0 1 =
      .error (.countMismatch 3 2) :=
  ⟨rfl, rfl, rfl, rfl, rfl⟩

/-! ## Claim theorem: tokenizer release (C9) -/

def c9run : Except PageErr PageState × List Ev :=
  pageEvOf (processPageChunks
    (fun texts => geminiEmbeddingsBatch true texts (fun _ => ⟨400, none⟩) 3)
    okUpsert (strL "b") (strL "f.pdf") 1 2 5 [⟨strL "hello", 5⟩])

/-- C9: on an ingestion run whose embedding call throws (here a
non-transient 400 on the first batch), the thrown error propagates to the
handler's `catch`, which responds 500 without invoking `tokenizer.free` —
the tokenizer is freed only on the successful completion path (`routes.ts`
line 506); the early-return rejections respond before the tokenizer is
constructed. -/
theorem tokenizer_free_skipped_on_error :
    (postIngest true true (.ok 100) 200 c9run).status = 500 ∧
    Ev.createTok ∈ (postIngest true true (.ok 100) 200 c9run).events ∧
    Ev.freeTok ∉ (postIngest true true (.ok 100) 200 c9run).events ∧
    (postIngest true true (.ok 100) 200 (.ok ⟨0, []⟩, [Ev.upsertCall])).events =
      [Ev.createTok, Ev.upsertCall, Ev.freeTok] ∧
    (postIngest false true (.ok 100) 200 c9run).events = [] ∧
    (postIngest true true (.error (strL "download failed")) 200 c9run).events = [] ∧
    (postIngest true true (.ok 300) 200 c9run).events = [] := by
  refine ⟨rfl, by decide, by decide, rfl, rfl, rfl, rfl⟩

/-! ## Claim theorems: chunk assembler (C2) -/

theorem foldl_preserve {α β : Type} (P : β → Prop) :
    ∀ (xs : List α) (step : β → α → β) (st : β),
      P st → (∀ b a, a ∈ xs → P b → P (step b a)) → P (xs.foldl step st) := by
  intro xs
  induction xs with
  | nil =>
    intro step st h _
    simpa using h
  | cons x xs ih =>
    intro step st h hstep
    rw [List.foldl_cons]
    exact ih step (step st x) (hstep st x (List.mem_cons_self ..) h)
      (fun b a ha hb => hstep b a (List.mem_cons_of_mem _ ha) hb)

/-- The assembler's invariant: the buffer token count is the tokenizer
count of the buffer (whenever the buffer is non-empty), and every emitted
chunk is the trim of some non-empty raw buffer whose count is its
`tokenCount`. -/
def asmInv (cnt : Str → Nat) (st : AsmSt) : Prop :=
  (st.ct ≠ [] → st.tok = cnt st.ct) ∧
  ∀ ch ∈ st.chunks, ∃ raw : Str, raw ≠ [] ∧ ch.text = jsTrim raw ∧
    ch.tokenCount = cnt raw

theorem pushChunk_inv {cnt : Str → Nat} {v : Nat} {st : AsmSt}
    (h : asmInv cnt st) : asmInv cnt (pushChunk cnt v st) := by
  rw [pushChunk]
  by_cases hct : st.ct.isEmpty = true
  · rw [if_pos hct]
    exact h
  · rw [if_neg hct]
    have hne : st.ct ≠ [] := by
      intro hx
      rw [hx] at hct
      exact hct rfl
    have hchunks : ∀ ch ∈ st.chunks ++ [(⟨jsTrim st.ct, st.tok⟩ : Chunk)],
        ∃ raw : Str, raw ≠ [] ∧ ch.text = jsTrim raw ∧ ch.tokenCount = cnt raw := by
      intro ch hch
      rcases List.mem_append.mp hch with hch | hch
      · exact h.2 ch hch
      · rw [List.mem_singleton.mp hch]
        exact ⟨st.ct, hne, rfl, h.1 hne⟩
    split
    · exact ⟨fun _ => rfl, hchunks⟩
    · exact ⟨fun hx => absurd rfl hx, hchunks⟩

theorem asmFoldPiece_inv {cnt : Str → Nat} {c v : Nat} {st : AsmSt}
    {piece : Str} (h : asmInv cnt st) :
    asmInv cnt (asmFoldPiece cnt c v st piece) := by
  rw [asmFoldPiece]
  have h₁ : asmInv cnt (if c < st.tok + cnt piece then pushChunk cnt v st else st) := by
    split
    · exact pushChunk_inv h
    · exact h
  exact ⟨fun _ => rfl, h₁.2⟩

theorem asmStep_inv {cnt : Str → Nat} {c v : Nat} {st : AsmSt} {seg : Str}
    (h : asmInv cnt st) : asmInv cnt (asmStep cnt c v st seg) := by
  rw [asmStep]
  split
  · exact foldl_preserve (asmInv cnt) _ _ st h
      (fun b a _ hb => asmFoldPiece_inv hb)
  · split
    · exact ⟨fun _ => rfl, h.2⟩
    · exact ⟨fun _ => rfl, (pushChunk_inv h).2⟩

/-- The bound invariant used for the amended budget claim: buffer and
chunks stay at or under `c + cnt "\n\n"` for an additive tokenizer, zero
overlap and segments strictly under budget. -/
def asmBound (cnt : Str → Nat) (c : Nat) (st : AsmSt) : Prop :=
  (st.ct ≠ [] → st.tok = cnt st.ct) ∧ st.tok ≤ c + cnt nl2 ∧
  ∀ ch ∈ st.chunks, ch.tokenCount ≤ c + cnt nl2

theorem pushChunk_bound {cnt : Str → Nat} {c : Nat} {st : AsmSt}
    (h : asmBound cnt c st) : asmBound cnt c (pushChunk cnt 0 st) := by
  rw [pushChunk]
  by_cases hct : st.ct.isEmpty = true
  · rw [if_pos hct]
    exact h
  · rw [if_neg hct, if_neg (by omega)]
    refine ⟨fun hx => absurd rfl hx, Nat.zero_le _, ?_⟩
    intro ch hch
    rcases List.mem_append.mp hch with hch | hch
    · exact h.2.2 ch hch
    · rw [List.mem_singleton.mp hch]
      exact h.2.1

theorem asmStep_bound {cnt : Str → Nat} {c : Nat} {st : AsmSt} {seg : Str}
    (hadd : ∀ a b : Str, cnt (a ++ b) = cnt a + cnt b)
    (hseg : cnt seg < c) (h : asmBound cnt c st) :
    asmBound cnt c (asmStep cnt c 0 st seg) := by
  rw [asmStep]
  rw [if_neg (by omega)]
  split
  · next hfit =>
    constructor
    · intro _
      rfl
    constructor
    · by_cases hct : st.ct.isEmpty = true
      · rw [if_pos hct]
        show cnt seg ≤ c + cnt nl2
        omega
      · rw [if_neg hct]
        have hne : st.ct ≠ [] := by
          intro hx
          rw [hx] at hct
          exact hct rfl
        have htok := h.1 hne
        show cnt (st.ct ++ nl2 ++ seg) ≤ c + cnt nl2
        rw [hadd, hadd]
        omega
    · exact h.2.2
  · next hover =>
    have hp := pushChunk_bound h
    refine ⟨fun _ => rfl, ?_, hp.2.2⟩
    show cnt seg ≤ c + cnt nl2
    omega

/-- C2 (amended): every chunk emitted by the assembler is the trim of some
non-empty buffer string `raw` with `tokenCount = tokenizer.count(raw)` (so
`tokenCount = tokenizer.count(text)` exactly when counting is invariant
under the trim); and the budget bound must be weakened: even with
`overlapTokens = 0` and every segment strictly under budget, the blank-line
join adds uncounted separator tokens, so the guarantee is
`tokenCount ≤ chunkSizeTokens + count("\n\n")` for a length-additive
tokenizer (the counterexample shows `tokenCount > chunkSizeTokens` with no
oversized indivisible unit involved, and with overlap the excess is
unbounded). -/
theorem assembleChunks_amended (cnt : Str → Nat) (c : Nat) :
    (∀ (v : Nat) (segs : List Str), ∀ ch ∈ assembleChunks segs cnt c v,
        ∃ raw : Str, raw ≠ [] ∧ ch.text = jsTrim raw ∧
          ch.tokenCount = cnt raw) ∧
    (∀ segs : List Str, (∀ a b : Str, cnt (a ++ b) = cnt a + cnt b) →
        (∀ s ∈ segs, cnt s < c) →
        ∀ ch ∈ assembleChunks segs cnt c 0, ch.tokenCount ≤ c + cnt nl2) := by
  constructor
  · intro v segs ch hch
    rw [assembleChunks] at hch
    have hfin : asmInv cnt (segs.foldl (asmStep cnt c v) ⟨[], [], 0⟩) :=
      foldl_preserve (asmInv cnt) segs _ _
        ⟨fun hx => absurd rfl hx, by simp⟩
        (fun b a _ hb => asmStep_inv hb)
    exact (pushChunk_inv hfin).2 ch hch
  · intro segs hadd hsegs ch hch
    rw [assembleChunks] at hch
    have hfin : asmBound cnt c (segs.foldl (asmStep cnt c 0) ⟨[], [], 0⟩) :=
      foldl_preserve (asmBound cnt c) segs _ _
        ⟨fun hx => absurd rfl hx, Nat.zero_le _, by simp⟩
        (fun b a ha hb => asmStep_bound hadd (hsegs a ha) hb)
    exact (pushChunk_bound hfin).2.2 ch hch

/-- C2 counterexample: two segments of 2 tokens each under a 4-token budget
(length-counting tokenizer, zero overlap) are merged — the admission check
`currentTokens + segTokens <= chunkSizeTokens` passes with `2 + 2 ≤ 4` —
but the blank-line join makes the recomputed count 6 > 4, so the emitted
chunk exceeds the budget although no single indivisible unit exceeded it. -/
theorem assembleChunks_budget_cx :
    assembleChunks [strL "ab", strL "cd"] lenTok 4 0 =
      [⟨strL "ab\n\ncd", 6⟩] ∧
    (∀ s ∈ [strL "ab", strL "cd"], lenTok s ≤ 4) ∧
    lenTok (strL "ab\n\ncd") = 6 ∧ ¬ (6 ≤ 4) := by decide

/-- C2 witness: instantiating the amended claim at a concrete run. -/
theorem assembleChunks_amended_w :
    (∃ raw : Str, raw ≠ [] ∧ (Chunk.mk (strL "ab\n\ncd") 6).text = jsTrim raw ∧
      (Chunk.mk (strL "ab\n\ncd") 6).tokenCount = lenTok raw) ∧
    (Chunk.mk (strL "ab\n\ncd") 6).tokenCount ≤ 10 + lenTok nl2 :=
  ⟨(assembleChunks_amended lenTok 10).1 0 [strL "ab", strL "cd"]
      ⟨strL "ab\n\ncd", 6⟩ (by decide),
   (assembleChunks_amended lenTok 10).2 [strL "ab", strL "cd"]
      (fun a b => List.length_append a b) (by decide)
      ⟨strL "ab\n\ncd", 6⟩ (by decide)⟩

/-! ## Claim theorems: ingestion orchestrator (C7, C6) -/

theorem mkVectors_length (bucket path : Str) (p : Nat) :
    ∀ (es : List Vec) (i : Nat) (batch : List Chunk),
      (mkVectors bucket path p i es batch).length = es.length := by
  intro es
  induction es with
  | nil =>
    intro i batch
    rfl
  | cons v vs ih =>
    intro i batch
    rw [mkVectors, List.length_cons, List.length_cons, ih]

theorem accPreviewGo_length (k p : Nat) : ∀ (vs : List VecRecord)
    (batch : List Chunk) (pv : List PreviewEntry),
    (accPreviewGo k p vs batch pv).length =
      max pv.length (min (pv.length + vs.length) k) := by
  intro vs
  induction vs with
  | nil =>
    intro batch pv
    rw [accPreviewGo]
    simp
  | cons v vs ih =>
    intro batch pv
    rw [accPreviewGo]
    split
    · rw [ih]
      simp only [List.length_append, List.length_cons, List.length_nil]
      omega
    · simp only [List.length_cons]
      omega

theorem runBatches_preview_bound (embedB : List Str → Except EmbedError (List Vec))
    (upsertB : List VecRecord → Except Str Unit) (bucket path : Str)
    (p bs k : Nat) : ∀ (batches : List (List Chunk)) (i : Nat)
    (st st' : PageState),
    (runBatches embedB upsertB bucket path p bs k batches i st).2 = .ok st' →
      st'.preview.length ≤ max st.preview.length k := by
  intro batches
  induction batches with
  | nil =>
    intro i st st' h
    rw [runBatches] at h
    rw [Except.ok.injEq] at h
    rw [← h]
    omega
  | cons batch more ih =>
    intro i st st' h
    rw [runBatches] at h
    split at h
    · simp at h
    · dsimp only at h
      split at h
      · simp at h
      · dsimp only at h
        have h' := ih (i + bs) _ st' h
        dsimp only at h'
        rw [accPreviewGo_length] at h'
        omega

/-- C7: for an assembled chunk list of length 5 and `batchSize = 2`,
exactly 3 upsert calls are made, with batch sizes 2, 2, 1, and the
accumulated preview sample has length `min 5 previewChunks`; in general the
preview sample never holds more than `previewChunks` entries regardless of
the chunk count (the claim's Scenario D plus the global preview bound). -/
theorem processPage_batches_preview :
    (∀ (bucket path : Str) (p k : Nat) (f : Str → Vec) (chunks : List Chunk),
        chunks.length = 5 →
        ((processPageChunks (okEmbed f) okUpsert bucket path p 2 k chunks).1.map
            List.length = [2, 2, 1]) ∧
        ∃ st : PageState,
          (processPageChunks (okEmbed f) okUpsert bucket path p 2 k chunks).2 =
            .ok st ∧ st.preview.length = min 5 k) ∧
    (∀ (embedB : List Str → Except EmbedError (List Vec))
        (upsertB : List VecRecord → Except Str Unit) (bucket path : Str)
        (p bs k : Nat) (chunks : List Chunk) (st' : PageState),
        (processPageChunks embedB upsertB bucket path p bs k chunks).2 = .ok st' →
          st'.preview.length ≤ k) := by
  constructor
  · intro bucket path p k f chunks h5
    rcases chunks with _ | ⟨c₁, _ | ⟨c₂, _ | ⟨c₃, _ | ⟨c₄, _ | ⟨c₅, _ | ⟨c₆, t⟩⟩⟩⟩⟩⟩ <;>
      simp only [List.length_cons, List.length_nil] at h5 <;> try omega
    constructor
    · rfl
    · refine ⟨_, rfl, ?_⟩
      show (accPreviewGo k p _ _ (accPreviewGo k p _ _ (accPreviewGo k p _ _ []))).length =
        min 5 k
      rw [accPreviewGo_length, accPreviewGo_length, accPreviewGo_length]
      rw [mkVectors_length, mkVectors_length, mkVectors_length]
      simp only [okEmbed, List.length_map, List.map_cons, List.map_nil,
        List.length_cons, List.length_nil, List.length_take, List.length_drop]
      omega
  · intro embedB upsertB bucket path p bs k chunks st' h
    have hb := runBatches_preview_bound embedB upsertB bucket path p bs k
      (chunkListF bs chunks.length chunks) 0 ⟨0, []⟩ st' h
    simpa using hb

/-- C7 witness: a concrete five-chunk page with `batchSize = 2` and
`previewChunks = 3`. -/
theorem processPage_batches_preview_w :
    ((processPageChunks (okEmbed (fun _ => cV1)) okUpsert (strL "b")
        (strL "f.pdf") 1 2 3
        [⟨strL "s1", 1⟩, ⟨strL "s2", 1⟩, ⟨strL "s3", 1⟩, ⟨strL "s4", 1⟩,
         ⟨strL "s5", 1⟩]).1.map List.length = [2, 2, 1]) ∧
    ∃ st : PageState,
      (processPageChunks (okEmbed (fun _ => cV1)) okUpsert (strL "b")
          (strL "f.pdf") 1 2 3
          [⟨strL "s1", 1⟩, ⟨strL "s2", 1⟩, ⟨strL "s3", 1⟩, ⟨strL "s4", 1⟩,
           ⟨strL "s5", 1⟩]).2 = .ok st ∧ st.preview.length = min 5 3 :=
  (processPage_batches_preview.1 (strL "b") (strL "f.pdf") 1 3
    (fun _ => cV1)
    [⟨strL "s1", 1⟩, ⟨strL "s2", 1⟩, ⟨strL "s3", 1⟩, ⟨strL "s4", 1⟩,
     ⟨strL "s5", 1⟩] (by decide))

theorem mkVectors_ids (bucket path : Str) (p : Nat) :
    ∀ (es : List Vec) (i : Nat) (batch : List Chunk),
      (mkVectors bucket path p i es batch).map VecRecord.id =
        (List.range' i es.length).map (mkRecordId bucket path p) := by
  intro es
  induction es with
  | nil =>
    intro i batch
    rfl
  | cons v vs ih =>
    intro i batch
    rw [mkVectors, List.map_cons, ih, List.length_cons, List.range'_succ,
      List.map_cons]

theorem range'_chunk (i bs len : Nat) :
    List.range' i (min bs len) ++ List.range' (i + bs) (len - bs) =
      List.range' i len := by
  rcases Nat.le_total len bs with hl | hl
  · rw [Nat.min_eq_right hl, Nat.sub_eq_zero_of_le hl]
    simp
  · rw [Nat.min_eq_left hl]
    have happ := List.range'_append i bs (len - bs) 1
    simp only [Nat.one_mul] at happ
    rw [happ]
    congr 1
    omega

theorem runBatches_ids (f : Str → Vec) (bucket path : Str) (p bs k : Nat)
    (hbs : 1 ≤ bs) : ∀ (fuel : Nat) (xs : List Chunk), xs.length ≤ fuel →
    ∀ (i : Nat) (st : PageState),
      ((runBatches (okEmbed f) okUpsert bucket path p bs k
          (chunkListF bs fuel xs) i st).1.flatten.map VecRecord.id) =
        (List.range' i xs.length).map (mkRecordId bucket path p) := by
  intro fuel
  induction fuel with
  | zero =>
    intro xs hx i st
    have hxs : xs = [] := List.eq_nil_of_length_eq_zero (Nat.le_zero.mp hx)
    subst hxs
    rfl
  | succ n ih =>
    intro xs hx i st
    cases xs with
    | nil => rfl
    | cons x rest =>
      have hlen : rest.length + 1 ≤ n + 1 := by simpa using hx
      have hdl : ((x :: rest).drop bs).length ≤ n := by
        simp only [List.length_drop, List.length_cons]
        omega
      simp only [chunkListF, runBatches, okEmbed, okUpsert]
      rw [List.flatten_cons, List.map_append, mkVectors_ids, ih _ hdl]
      rw [← List.map_append]
      congr 1
      simp only [List.length_map, List.length_take, List.length_drop,
        List.length_cons]
      exact range'_chunk i bs (rest.length + 1)

/-- C6: every vector record id produced for a page's chunk list is exactly
`mkRecordId bucket path p chunkIndex` with the chunk indices enumerating
`0 .. chunks.length - 1` in order — the ids are a pure function of
`(bucket, path, page, chunkIndex)`, so a second ingestion with identical
parameters produces the identical id list, and upserting the same ids into
an id-keyed store twice leaves the store (and its cardinality) unchanged —
no growth in stored record count. -/
theorem recordIds_deterministic_idempotent (bucket path : Str) (p bs k : Nat)
    (f : Str → Vec) (chunks : List Chunk) (hbs : 1 ≤ bs) :
    ((processPageChunks (okEmbed f) okUpsert bucket path p bs k
        chunks).1.flatten.map VecRecord.id =
      (List.range chunks.length).map (mkRecordId bucket path p)) ∧
    ∀ s : Finset Str,
      upsertIdSet
          (upsertIdSet s ((processPageChunks (okEmbed f) okUpsert bucket path
            p bs k chunks).1.flatten.map VecRecord.id))
          ((processPageChunks (okEmbed f) okUpsert bucket path p bs k
            chunks).1.flatten.map VecRecord.id) =
        upsertIdSet s ((processPageChunks (okEmbed f) okUpsert bucket path
          p bs k chunks).1.flatten.map VecRecord.id) ∧
      (upsertIdSet
          (upsertIdSet s ((processPageChunks (okEmbed f) okUpsert bucket path
            p bs k chunks).1.flatten.map VecRecord.id))
          ((processPageChunks (okEmbed f) okUpsert bucket path p bs k
            chunks).1.flatten.map VecRecord.id)).card =
        (upsertIdSet s ((processPageChunks (okEmbed f) okUpsert bucket path
          p bs k chunks).1.flatten.map VecRecord.id)).card := by
  have hids := runBatches_ids f bucket path p bs k hbs chunks.length chunks
    (Nat.le_refl _) 0 ⟨0, []⟩
  constructor
  · rw [processPageChunks, hids, List.range_eq_range']
  · intro s
    have hunion : ∀ I : List Str, upsertIdSet (upsertIdSet s I) I = upsertIdSet s I := by
      intro I
      simp only [upsertIdSet]
      rw [Finset.union_assoc, Finset.union_self]
    exact ⟨hunion _, by rw [hunion _]⟩

/-- C6 witness: a concrete single-chunk page, ingested twice into an empty
store. -/
theorem recordIds_deterministic_idempotent_w :
    ((processPageChunks (okEmbed (fun _ => cV1)) okUpsert (strL "b")
        (strL "f.pdf") 1 2 5 [⟨strL "s1", 1⟩]).1.flatten.map VecRecord.id =
      (List.range 1).map (mkRecordId (strL "b") (strL "f.pdf") 1)) ∧
    upsertIdSet
        (upsertIdSet ∅ ((processPageChunks (okEmbed (fun _ => cV1)) okUpsert
          (strL "b") (strL "f.pdf") 1 2 5
          [⟨strL "s1", 1⟩]).1.flatten.map VecRecord.id))
        ((processPageChunks (okEmbed (fun _ => cV1)) okUpsert (strL "b")
          (strL "f.pdf") 1 2 5 [⟨strL "s1", 1⟩]).1.flatten.map VecRecord.id) =
      upsertIdSet ∅ ((processPageChunks (okEmbed (fun _ => cV1)) okUpsert
        (strL "b") (strL "f.pdf") 1 2 5
        [⟨strL "s1", 1⟩]).1.flatten.map VecRecord.id) :=
  ⟨(recordIds_deterministic_idempotent (strL "b") (strL "f.pdf") 1 2 5
      (fun _ => cV1) [⟨strL "s1", 1⟩] (by decide)).1,
   ((recordIds_deterministic_idempotent (strL "b") (strL "f.pdf") 1 2 5
      (fun _ => cV1) [⟨strL "s1", 1⟩] (by decide)).2 ∅).1⟩

/-! ## Claim theorems: query orchestrator (C8) -/

theorem replaceKey_mem (acc : List (Str × Mapped)) (key : Str) (m x : Mapped)
    (h : x ∈ (replaceKey acc key m).map (fun kv => kv.2)) :
    x ∈ acc.map (fun kv => kv.2) ∨ x = m := by
  rw [replaceKey, List.map_map] at h
  rcases List.mem_map.mp h with ⟨kv, hkv, hx⟩
  simp only [Function.comp_apply] at hx
  by_cases hk : kv.1 = key
  · rw [if_pos hk] at hx
    exact Or.inr hx.symm
  · rw [if_neg hk] at hx
    refine Or.inl ?_
    rw [← hx]
    exact List.mem_map_of_mem _ hkv

theorem dedupGo_sub : ∀ (ms : List Mapped) (acc : List (Str × Mapped))
    (x : Mapped), x ∈ (dedupGo acc ms).map (fun kv => kv.2) →
      x ∈ acc.map (fun kv => kv.2) ∨ x ∈ ms := by
  intro ms
  induction ms with
  | nil =>
    intro acc x h
    rw [dedupGo] at h
    exact Or.inl h
  | cons m ms ih =>
    intro acc x h
    rw [dedupGo] at h
    rcases hk : lookupKey acc (jsOrStr m.path m.id) with _ | prev <;>
      rw [hk] at h <;> dsimp only at h
    · rcases ih _ x h with hx | hx
      · rw [List.map_append] at hx
        rcases List.mem_append.mp hx with hx | hx
        · exact Or.inl hx
        · simp only [List.map_cons, List.map_nil, List.mem_singleton] at hx
          exact Or.inr (hx ▸ List.mem_cons_self ..)
      · exact Or.inr (List.mem_cons_of_mem _ hx)
    · split at h
      · rcases ih _ x h with hx | hx
        · rcases replaceKey_mem acc _ m x hx with hx' | hx'
          · exact Or.inl hx'
          · exact Or.inr (hx' ▸ List.mem_cons_self ..)
        · exact Or.inr (List.mem_cons_of_mem _ hx)
      · rcases ih _ x h with hx | hx
        · exact Or.inl hx
        · exact Or.inr (List.mem_cons_of_mem _ hx)

/-- C8 (amended): `pineconeQuery` itself returns the remote index's parsed
response verbatim, but the query orchestrator `fetchMatchingResumes` does
not return the matches verbatim: it always queries with the hard-coded
`topK = 10`, maps each match into `{id, name, path, excerpt, score·100}`,
deduplicates by `path || id` keeping the higher score, truncates the result
to at most 5 entries, and swallows errors into `[]`.  Each returned entry is
the mapping of some match the index returned. -/
theorem fetchMatchingResumes_amended :
    (∀ (v : Vec) (tk : Nat) (r : HttpResp) (j : JVal),
        httpOk r.status = true → r.body = some j →
          pineconeQuery v tk r = .ok j) ∧
    (∀ (embedB : List Str → Except GemErr (List Vec))
        (queryB : Vec → Nat → Except Str (List PMatch)) (req : Str)
        (es : List Vec) (ms : List PMatch),
        embedB [req] = .ok es → queryB (es.headD .nil) 10 = .ok ms →
          fetchMatchingResumes embedB queryB req =
            (deduplicateMatches (ms.map mapMatch)).take 5 ∧
          (fetchMatchingResumes embedB queryB req).length ≤ 5 ∧
          ∀ x ∈ fetchMatchingResumes embedB queryB req,
            ∃ m ∈ ms, x = mapMatch m) := by
  constructor
  · intro v tk r j hok hbody
    rw [pineconeQuery, hok, hbody]
    rfl
  · intro embedB queryB req es ms h₁ h₂
    have hfix : fetchMatchingResumes embedB queryB req =
        (deduplicateMatches (ms.map mapMatch)).take 5 := by
      rw [fetchMatchingResumes, h₁]
      dsimp only
      rw [h₂]
    refine ⟨hfix, ?_, ?_⟩
    · rw [hfix]
      exact List.length_take_le ..
    · intro x hx
      rw [hfix] at hx
      have hx' : x ∈ deduplicateMatches (ms.map mapMatch) :=
        List.mem_of_mem_take hx
      rw [deduplicateMatches] at hx'
      rcases dedupGo_sub (ms.map mapMatch) [] x hx' with hx'' | hx''
      · simp at hx''
      · rcases List.mem_map.mp hx'' with ⟨m, hm, hxm⟩
        exact ⟨m, hm, hxm.symm⟩

def cPM1 : PMatch :=
  ⟨strL "i1", some 1, some ⟨some (strL "F1"), none, some (strL "p1"), some (strL "S"), none⟩⟩

/-- C8 witness: a successful embed and query with one match. -/
theorem fetchMatchingResumes_amended_w :
    pineconeQuery JList.nil 3 ⟨200, some JVal.null⟩ = .ok JVal.null ∧
    (fetchMatchingResumes (fun _ => .ok [JList.nil])
        (fun _ _ => .ok [cPM1]) (strL "q")).length ≤ 5 :=
  ⟨fetchMatchingResumes_amended.1 JList.nil 3 ⟨200, some JVal.null⟩ JVal.null
      rfl rfl,
   (fetchMatchingResumes_amended.2 (fun _ => .ok [JList.nil])
      (fun _ _ => .ok [cPM1]) (strL "q") [JList.nil] [cPM1] rfl rfl).2.1⟩

def cSixMatches : List PMatch :=
  [⟨strL "i1", some 1, some ⟨some (strL "F1"), none, some (strL "p1"), some (strL "S1"), none⟩⟩,
   ⟨strL "i2", some 1, some ⟨some (strL "F2"), none, some (strL "p2"), some (strL "S2"), none⟩⟩,
   ⟨strL "i3", some 1, some ⟨some (strL "F3"), none, some (strL "p3"), some (strL "S3"), none⟩⟩,
   ⟨strL "i4", some 1, some ⟨some (strL "F4"), none, some (strL "p4"), some (strL "S4"), none⟩⟩,
   ⟨strL "i5", some 1, some ⟨some (strL "F5"), none, some (strL "p5"), some (strL "S5"), none⟩⟩,
   ⟨strL "i6", some 1, some ⟨some (strL "F6"), none, some (strL "p6"), some (strL "S6"), none⟩⟩]

def cDupMatches : List PMatch :=
  [⟨strL "a", some 1, some ⟨some (strL "FA"), none, some (strL "p"), some (strL "SA"), none⟩⟩,
   ⟨strL "b", some 2, some ⟨some (strL "FB"), none, some (strL "p"), some (strL "SB"), none⟩⟩]

/-- C8 counterexample: the index returns 6 matches, the orchestrator
returns only 5 (truncation), with scores rescaled from 1 to 100; and for
two matches sharing a `path` it returns a single deduplicated entry — not
the Matches verbatim. -/
theorem fetchMatchingResumes_truncates_cx :
    cSixMatches.length = 6 ∧
    (fetchMatchingResumes (fun _ => .ok [JList.nil])
        (fun _ _ => .ok cSixMatches) (strL "q")).length = 5 ∧
    (fetchMatchingResumes (fun _ => .ok [JList.nil])
        (fun _ _ => .ok cSixMatches) (strL "q")).map (fun x => x.score) =
      [100, 100, 100, 100, 100] ∧
    cDupMatches.length = 2 ∧
    (fetchMatchingResumes (fun _ => .ok [JList.nil])
        (fun _ _ => .ok cDupMatches) (strL "q")).length = 1 := by decide
